import Mathlib

/-!
Verification of the ACBP compiler core (`acbp_tester.py`) against its
natural-language specification.  The Python source is shallowly embedded:
dictionaries become structures or association lists, machine integers become
`Nat`/`Int`/`ℚ` (the source uses arbitrary-precision Python ints for masks;
in the estimator the int-to-double conversion of `theoretical_max` and the
half-to-even `round` builtin are modelled exactly, while the remaining float
products are idealised as exact rationals), and the
`while`-loop of the depth-first traversal is given an explicit fuel argument
that is proved (and instantiated) large enough to reproduce the behaviour of the loop.
-/

namespace ACBP

/-- A `when` entry of a FORBID_WHEN constraint: the Python value is either a
scalar string or a list of strings (`isinstance(spec, list)` dispatch). -/
inductive WhenSpec where
  | scalar (v : String)
  | listOf (vs : List String)
deriving DecidableEq, Repr

/-- `values = spec if isinstance(spec, list) else [spec]` from the source. -/
def WhenSpec.values : WhenSpec → List String
  | .scalar v => [v]
  | .listOf vs => vs

/-- A constraint document: a string-discriminated record, exactly as the JSON
documents consumed by `acbp_tester.py`.  Fields not used by a given type tag
are simply ignored by the code, as in the Python dict. -/
structure Constraint where
  ctype : String
  a : String
  b : String
  cflags : List String
  if_flag : String
  when : List (String × WhenSpec)
  condition : String
deriving DecidableEq, Repr

def Constraint.impliesC (a b : String) : Constraint := ⟨"IMPLIES", a, b, [], "", [], ""⟩
def Constraint.equivC (a b : String) : Constraint := ⟨"EQUIV", a, b, [], "", [], ""⟩
def Constraint.mutexC (a b : String) : Constraint := ⟨"MUTEX", a, b, [], "", [], ""⟩
def Constraint.oneofC (fs : List String) : Constraint := ⟨"ONEOF", "", "", fs, "", [], ""⟩
def Constraint.forbidWhenC (f : String) (w : List (String × WhenSpec)) : Constraint :=
  ⟨"FORBID_WHEN", "", "", [], f, w, ""⟩
def Constraint.forbidIfSqlC (f cond : String) : Constraint :=
  ⟨"FORBID_IF_SQL", "", "", [], f, [], cond⟩

/-- A model document (`name`, `flags`, `categories`, `constraints`,
`enumeration_limit_bits`); the categories mapping keeps insertion order as an
association list, `enumeration_limit_bits` is optional
(`model.get("enumeration_limit_bits", 22)`). -/
structure Model where
  name : String
  flags : List String
  categories : List (String × List String)
  constraints : List Constraint
  enumeration_limit_bits : Option Nat
deriving DecidableEq, Repr

/-- The Python `str.upper()` method on the ASCII type tags, modelled character by
character (kernel-reducible, unlike `String.toUpper`). -/
def strUpper (s : String) : String := String.mk (s.data.map Char.toUpper)

/-- `bitpos_map`: `{f: i for i, f in enumerate(flags)}`; on duplicate names the
Python dict keeps the last index, and a missing key (only reachable from a
malformed model, where Python raises KeyError) is mapped to 0. -/
def bitpos_map (flags : List String) (f : String) : Nat :=
  ((flags.enum.filter (fun p => p.2 = f)).getLastD (0, f)).1

/-- `bit(mask, p) = (mask >> p) & 1`. -/
def bit (mask p : Nat) : Nat := (mask >>> p) &&& 1

/-- The per-constraint body of the `ok` loop of the enumerator
(`acbp_tester.py` lines 57–76): a constraint passes unless its branch
returns False; FORBID_WHEN / FORBID_IF_SQL and unknown type tags fall
through the dispatch and impose no restriction. -/
def constraint_ok (pos : String → Nat) (mask : Nat) (c : Constraint) : Bool :=
  let t := strUpper c.ctype
  if t = "IMPLIES" then
    !(bit mask (pos c.a) = 1 && bit mask (pos c.b) = 0)
  else if t = "EQUIV" then
    bit mask (pos c.a) = bit mask (pos c.b)
  else if t = "MUTEX" then
    !(bit mask (pos c.a) + bit mask (pos c.b) > 1)
  else if t = "ONEOF" then
    (c.cflags.map (fun f => bit mask (pos f))).sum = 1
  else
    true

/-- `ok(mask)`: the loop returns False at the first failing constraint,
i.e. the conjunction of all per-constraint checks. -/
def ok (model : Model) (mask : Nat) : Bool :=
  model.constraints.all (constraint_ok (bitpos_map model.flags) mask)

/-- `enumerate_valid_masks` (`acbp_tester.py` lines 49–77): skip (empty
result) when B exceeds the limit, else filter `range(1 << B)` by `ok`. -/
def enumerate_valid_masks (model : Model) : List Nat :=
  let B := model.flags.length
  let limit_bits := (model.enumeration_limit_bits).getD 22
  if B > limit_bits then []
  else (List.range (1 <<< B)).filter (fun m => ok model m)

/-! ### Equivalence reducer (`scc_equivalence`, `compute_B_eff`) -/

/-- An EQUIV(a,b) edge between `x` and `y` (either orientation), as added to
the undirected adjacency sets by `scc_equivalence`. -/
def equiv_edge (cons : List Constraint) (x y : String) : Bool :=
  cons.any (fun c =>
    strUpper c.ctype = "EQUIV" && ((c.a = x && c.b = y) || (c.a = y && c.b = x)))

/-- Membership `b ∈ implies[a]` of the implication map built from IMPLIES
constraints. -/
def implies_mem (cons : List Constraint) (x y : String) : Bool :=
  cons.any (fun c => strUpper c.ctype = "IMPLIES" && c.a = x && c.b = y)

/-- The undirected adjacency of `scc_equivalence`: an EQUIV edge or a pair of
mutual IMPLIES.  Both are inserted symmetrically by the source, so this
relation is symmetric by construction. -/
def adjacent (cons : List Constraint) (x y : String) : Bool :=
  equiv_edge cons x y || (implies_mem cons x y && implies_mem cons y x)

/-- The neighbour list `adj[x]` of the traversal: the adjacency dict has one
key per declared flag (a lookup outside `flags` has no entries). -/
def neighbors (flags : List String) (cons : List Constraint) (x : String) : List String :=
  if x ∈ flags then flags.filter (fun y => adjacent cons x y) else []

/-- The inner `while stack:` loop of `scc_equivalence`: pop `x`; skip it when
already seen, else mark it seen, collect it into the current component and
push its unseen neighbours.  The loop is embedded with an explicit fuel
argument; `dfs_fuel` below is proved large enough that the fuel never runs
out, so the fuelled function computes exactly what the loop computes. -/
def dfs (flags : List String) (cons : List Constraint) :
    Nat → List String → List String → List String → List String × List String
  | _, [], seen, comp => (seen, comp)
  | 0, _ :: _, seen, comp => (seen, comp)
  | fuel + 1, x :: stack, seen, comp =>
    if x ∈ seen then dfs flags cons fuel stack seen comp
    else
      dfs flags cons fuel
        ((neighbors flags cons x).filter (fun y => y ∉ x :: seen) ++ stack)
        (x :: seen) (x :: comp)

/-- Termination measure of the while loop in the source: unseen flags weighted by
`|flags| + 1`, plus the stack size. -/
def dfs_measure (flags : List String) (seen stack : List String) : Nat :=
  (flags.filter (fun y => y ∉ seen)).length * (flags.length + 1) + stack.length

/-- Fuel sufficient for any single traversal started from a one-element
stack. -/
def dfs_fuel (flags : List String) : Nat :=
  flags.length * (flags.length + 1) + 1

/-- One iteration of the outer `for f in flags:` loop of `scc_equivalence`:
skip an already-seen flag, otherwise traverse from it and append the
collected component. -/
def scc_step (flags : List String) (cons : List Constraint)
    (acc : List String × List (List String)) (f : String) :
    List String × List (List String) :=
  if f ∈ acc.1 then acc
  else
    let r := dfs flags cons (dfs_fuel flags) [f] acc.1 []
    (r.1, acc.2 ++ [r.2])

/-- `scc_equivalence` (`acbp_tester.py` lines 10–37): one traversal per not
yet seen flag, components collected in declaration order of their first
flag. -/
def scc_equivalence (flags : List String) (cons : List Constraint) : List (List String) :=
  (flags.foldl (scc_step flags cons) ([], [])).2

/-- `compute_B_eff = len(scc_equivalence(flags, constraints))`. -/
def compute_B_eff (flags : List String) (cons : List Constraint) : Nat :=
  (scc_equivalence flags cons).length

/-! ### Sanity estimator (`estimate_sanity`)

The source computes with Python floats and renders every value to a string
(`"{:,}"`, `"{:.1f}%"`).  The embedding keeps exact values (`ℚ`/`ℤ`), models
the Python `round` builtin (half-to-even rounding) exactly, and models the
int-to-double conversion that `theoretical_max * keep_prob` performs on
`theoretical_max` exactly (`toDouble`, the operation through which the double
format becomes observable in the results).  The double arithmetic of the
keep-probability product itself is idealised as exact rational arithmetic:
each factor is clamped into [0,1] before multiplying, so the [0,1] range of
the product — the only fact stated about it — holds of the float computation
as well. -/

/-- `count_category_leaves`: 1 for an empty mapping, else the product of
`max(1, len(vals))` over the declared categories. -/
def count_category_leaves (categories : List (String × List String)) : Nat :=
  if categories = [] then 1
  else categories.foldl (fun n p => n * max 1 p.2.length) 1

/-- Python `round` on an exact value: round half to even. -/
def pyRound (x : ℚ) : ℤ :=
  if x - ⌊x⌋ < 1 / 2 then ⌊x⌋
  else if 1 / 2 < x - ⌊x⌋ then ⌊x⌋ + 1
  else if ⌊x⌋ % 2 = 0 then ⌊x⌋ else ⌊x⌋ + 1

/-- Fuelled base-2 logarithm (the fuel only bounds the recursion depth; 1100
covers every value below the double overflow threshold 2^1024). -/
def pylog2 : ℕ → ℕ → ℕ
  | 0, _ => 0
  | fuel + 1, n => if 2 ≤ n then pylog2 fuel (n / 2) + 1 else 0

/-- Conversion of a Python int to an IEEE-754 double, as performed by the
expression `theoretical_max * keep_prob` (CPython converts the int operand to
a float before multiplying): exact up to 2^53, beyond that round to the
nearest multiple of the unit in the last place of a 53-bit significand, ties
to the even multiple.  For n ≥ 2^1024 the interpreter raises OverflowError
instead of returning a float; the model covers the range below that (the
recursion fuel 1100 exceeds every such exponent). -/
def toDouble (n : ℕ) : ℕ :=
  if n ≤ 2 ^ 53 then n
  else
    let ulp := 2 ^ (pylog2 1100 n - 52)
    let q := n / ulp
    let r := n % ulp
    if r * 2 < ulp then q * ulp
    else if ulp < r * 2 then (q + 1) * ulp
    else if q % 2 = 0 then q * ulp else (q + 1) * ulp

/-- Flag prevalence among the valid masks:
`(sum of bit f over valid_masks) / v if v > 0 else 0.0`. -/
def prev_val (flags : List String) (valid_masks : List Nat) (f : String) : ℚ :=
  let v := max 0 valid_masks.length
  if v > 0 then
    ((valid_masks.map (fun m => bit m (bitpos_map flags f))).sum : ℚ) / (v : ℚ)
  else 0

/-- The `prev` dict of `estimate_sanity`: one entry per flag. -/
def prev_assoc (flags : List String) (valid_masks : List Nat) : List (String × ℚ) :=
  flags.map (fun f => (f, prev_val flags valid_masks f))

/-- `prev.get(flag, 0.0)`: 0 for a flag that is not a key of the dict. -/
def prev_get (flags : List String) (valid_masks : List Nat) (f : String) : ℚ :=
  if f ∈ flags then prev_val flags valid_masks f else 0

/-- `cats.get(col, values)` followed by `max(1, len(...))`: the denominator of
one `when` column. -/
def when_denom (cats : List (String × List String)) (col : String)
    (values : List String) : Nat :=
  max 1 (((cats.lookup col).getD values).length)

/-- `frac_cats`: product over the `when` entries of
`min(1.0, len(values) / denom)`. -/
def frac_cats (cats : List (String × List String))
    (when : List (String × WhenSpec)) : ℚ :=
  when.foldl
    (fun acc kv =>
      acc * min 1 (((kv.2.values.length : ℚ)) / (when_denom cats kv.1 kv.2.values : ℚ)))
    1

/-- The `forbid_fracs` list: one `prev.get(flag, 0.0) * frac_cats` per
FORBID_WHEN constraint, in declaration order. -/
def forbid_fracs (flags : List String) (cats : List (String × List String))
    (cons : List Constraint) (valid_masks : List Nat) : List ℚ :=
  cons.filterMap (fun c =>
    if strUpper c.ctype = "FORBID_WHEN" then
      some (prev_get flags valid_masks c.if_flag * frac_cats cats c.when)
    else none)

/-- `keep_prob`: starts at 1.0 and multiplies `1 - max(0, min(1, f))` for every
forbidden fraction. -/
def keep_prob (fracs : List ℚ) : ℚ :=
  fracs.foldl (fun kp f => kp * (1 - max 0 (min 1 f))) 1

/-- Number of FORBID_WHEN constraints. -/
def fw_count (cons : List Constraint) : Nat :=
  cons.countP (fun c => strUpper c.ctype = "FORBID_WHEN")

/-- Number of FORBID_IF_SQL constraints. -/
def fisql_count (cons : List Constraint) : Nat :=
  cons.countP (fun c => strUpper c.ctype = "FORBID_IF_SQL")

/-- Fixed-point rendering with two decimals (Python `"{:.2f}"` on the exact
value), used only inside the textual notes. -/
def fmtFixed2 (x : ℚ) : String :=
  let n := pyRound (x * 100)
  let ip := n / 100
  let r := (n % 100).toNat
  toString ip ++ "." ++ (if r < 10 then "0" else "") ++ toString r

/-- The `pieces` of the FORBID_WHEN note: `f"{flag}@{(len(values)/denom)*100:.2f}%"`
computed from the first `when` entry (`next(iter(when.items()))`); constraints
with an empty `when` contribute nothing. -/
def fw_note_pieces (cats : List (String × List String)) (cons : List Constraint) :
    List String :=
  cons.filterMap (fun c =>
    if strUpper c.ctype = "FORBID_WHEN" then
      match c.when with
      | [] => none
      | (col, spec) :: _ =>
        some (c.if_flag ++ "@" ++
          fmtFixed2 (((spec.values.length : ℚ) / (when_denom cats col spec.values : ℚ)) * 100)
          ++ "%")
    else none)

/-- The `notes` list assembled by `estimate_sanity` (lines 222–238). -/
def estimate_notes (cats : List (String × List String)) (cons : List Constraint) :
    List String :=
  (if fw_count cons ≠ 0 ∧ fw_note_pieces cats cons ≠ [] then
    ["Applied FORBID_WHEN estimates: " ++
      String.intercalate "; " (fw_note_pieces cats cons) ++ "."]
   else []) ++
  (if fisql_count cons ≠ 0 then
    ["Excluded " ++ toString (fisql_count cons) ++ " FORBID_IF_SQL rule(s) from estimate."]
   else [])

/-- The result of `estimate_sanity`: the exact values that the source formats
into its result dict (`prev_line`, `theoretical_max`, `est_remaining`,
`est_pruned`, `est_pct`, `notes`). -/
structure Estimate where
  prev : List (String × ℚ)
  theoretical_max : Nat
  est_remaining : ℤ
  est_pruned : ℤ
  est_pct : ℚ
  notes : List String
deriving DecidableEq, Repr

/-- `estimate_sanity` (`acbp_tester.py` lines 189–248). -/
def estimate_sanity (model : Model) (valid_masks : List Nat) : Estimate :=
  let flags := model.flags
  let cats := model.categories
  let cons := model.constraints
  let v := max 0 valid_masks.length
  let n_eff := count_category_leaves cats
  let theoretical_max := v * n_eff
  let kp := keep_prob (forbid_fracs flags cats cons valid_masks)
  let est_remaining := pyRound ((toDouble theoretical_max : ℚ) * kp)
  let est_pruned := (theoretical_max : ℤ) - est_remaining
  let pct := if theoretical_max > 0 then
      (est_remaining : ℚ) / (theoretical_max : ℚ) * 100 else 0
  { prev := prev_assoc flags valid_masks
    theoretical_max := theoretical_max
    est_remaining := est_remaining
    est_pruned := est_pruned
    est_pct := pct
    notes := estimate_notes cats cons }

/-! ### SQL builders and the emitter (`emit_postgres_sql`) -/

/-- `_bit_expr(p, mask_expr)`. -/
def bit_expr (p : Nat) (mask_expr : String) : String :=
  "(((" ++ mask_expr ++ " >> " ++ toString p ++ ") & 1))"

/-- `_sql_quote`: double every single quote. -/
def sql_quote (s : String) : String :=
  s.replace "\x27" "\x27\x27"

/-- `_eq_or_in(col, spec)`. -/
def eq_or_in (col : String) (spec : WhenSpec) : String :=
  match spec with
  | .listOf vs =>
    "(" ++ col ++ " IN (" ++
      String.intercalate ", " (vs.map (fun v => "\x27" ++ sql_quote v ++ "\x27")) ++ "))"
  | .scalar v => "(" ++ col ++ " = \x27" ++ sql_quote v ++ "\x27)"

/-- `_fmt_when_for_rule(when)` (literal braces around the alternatives of a
list-valued entry). -/
def fmt_when_for_rule (when : List (String × WhenSpec)) : String :=
  String.intercalate ", "
    (when.map (fun kv =>
      match kv.2 with
      | .listOf vs => kv.1 ++ "=\x7b" ++ String.intercalate "|" vs ++ "\x7d"
      | .scalar v => kv.1 ++ "=" ++ v))

/-- `predicate_sql_for_bit_constraints` (`acbp_tester.py` lines 83–101):
conjunction of the bit-only fragments, `"TRUE"` when there are none;
FORBID_WHEN, FORBID_IF_SQL and unknown type tags contribute nothing. -/
def predicate_sql_for_bit_constraints (flags : List String)
    (cons : List Constraint) (mask_expr : String) : String :=
  let pos := bitpos_map flags
  let preds := cons.filterMap (fun c =>
    let t := strUpper c.ctype
    if t = "IMPLIES" then
      some ("(" ++ bit_expr (pos c.a) mask_expr ++ " = 0 OR " ++
        bit_expr (pos c.b) mask_expr ++ " = 1)")
    else if t = "EQUIV" then
      some ("(" ++ bit_expr (pos c.a) mask_expr ++ " = " ++
        bit_expr (pos c.b) mask_expr ++ ")")
    else if t = "MUTEX" then
      some ("(" ++ bit_expr (pos c.a) mask_expr ++ " + " ++
        bit_expr (pos c.b) mask_expr ++ " <= 1)")
    else if t = "ONEOF" then
      some ("(acbp_popcount(" ++ mask_expr ++ " & " ++
        toString ((c.cflags.map (fun f => 1 <<< pos f)).sum) ++ ") = 1)")
    else none)
  if preds = [] then "TRUE" else String.intercalate " AND\n    " preds

/-- `generate_categories_cte`. -/
def generate_categories_cte (categories : List (String × List String)) : String :=
  if categories = [] then "cats AS (SELECT 1 AS dummy)"
  else
    let parts := categories.enum.map (fun p =>
      "(SELECT unnest(ARRAY[" ++
        String.intercalate ", " (p.2.2.map (fun v => "\x27" ++ sql_quote v ++ "\x27")) ++
        "]) AS \"" ++ p.2.1 ++ "\") c" ++ toString (p.1 + 1))
    "cats AS (\n  SELECT * FROM " ++ String.intercalate "\n  CROSS JOIN " parts ++ "\n)"

/-- `bit_explain_unions` (one labelled `SELECT` per bit-only constraint). -/
def bit_explain_unions (flags : List String) (cons : List Constraint) : String :=
  let pos := bitpos_map flags
  let unions := cons.filterMap (fun c =>
    let t := strUpper c.ctype
    let entry := fun (rule okSql : String) =>
      some ("SELECT \x27" ++ sql_quote rule ++ "\x27::text AS rule, (" ++
        okSql ++ ")::boolean AS ok")
    if t = "IMPLIES" then
      entry ("IMPLIES(" ++ c.a ++ " -> " ++ c.b ++ ")")
        ("(" ++ bit_expr (pos c.a) "mask" ++ " = 0 OR " ++ bit_expr (pos c.b) "mask" ++ " = 1)")
    else if t = "EQUIV" then
      entry ("EQUIV(" ++ c.a ++ " <-> " ++ c.b ++ ")")
        ("(" ++ bit_expr (pos c.a) "mask" ++ " = " ++ bit_expr (pos c.b) "mask" ++ ")")
    else if t = "MUTEX" then
      entry ("MUTEX(" ++ c.a ++ ", " ++ c.b ++ ")")
        ("(" ++ bit_expr (pos c.a) "mask" ++ " + " ++ bit_expr (pos c.b) "mask" ++ " <= 1)")
    else if t = "ONEOF" then
      entry ("ONEOF(" ++ String.intercalate ", " c.cflags ++ ")")
        ("(acbp_popcount(mask & " ++
          toString ((c.cflags.map (fun f => 1 <<< pos f)).sum) ++ ") = 1)")
    else none)
  let unions := if unions = [] then
      ["SELECT \x27TRUE\x27::text AS rule, TRUE::boolean AS ok"]
    else unions
  String.intercalate "\nUNION ALL\n" unions

/-- `cat_rule_preds` (`acbp_tester.py` lines 162–186): the category-aware
predicate fragments and their explanation entries (FORBID_WHEN and
FORBID_IF_SQL only). -/
def cat_rule_preds (flags : List String) (cons : List Constraint)
    (mask_expr : String) : List String × List String :=
  let pos := bitpos_map flags
  let rows := cons.filterMap (fun c =>
    let t := strUpper c.ctype
    if t = "FORBID_WHEN" then
      let conds := c.when.map (fun kv => eq_or_in kv.1 kv.2)
      let when_sql := if conds = [] then "TRUE" else String.intercalate " AND " conds
      let rule_txt := "FORBID(" ++ c.if_flag ++ " when " ++ fmt_when_for_rule c.when ++ ")"
      let okSql := "NOT ( (" ++ when_sql ++ ") AND (" ++
        bit_expr (pos c.if_flag) mask_expr ++ " = 1) )"
      some (okSql, "SELECT \x27" ++ sql_quote rule_txt ++ "\x27::text AS rule, (" ++
        okSql ++ ")::boolean AS ok")
    else if t = "FORBID_IF_SQL" then
      let rule_txt := "FORBID(" ++ c.if_flag ++ " when SQL: " ++ c.condition ++ ")"
      let okSql := "NOT ( (" ++ c.condition ++ ") AND (" ++
        bit_expr (pos c.if_flag) mask_expr ++ " = 1) )"
      some (okSql, "SELECT \x27" ++ sql_quote rule_txt ++ "\x27::text AS rule, (" ++
        okSql ++ ")::boolean AS ok")
    else none)
  (rows.map (fun r => r.1), rows.map (fun r => r.2))

/-- Python `f"{f:>24s}"`: right-align in a 24-character field. -/
def padTo24 (s : String) : String :=
  String.mk (List.replicate (24 - s.length) (Char.ofNat 32)) ++ s

/-- `emit_postgres_sql` (`acbp_tester.py` lines 284–415): the full generated
SQL text, assembled in source order. -/
def emit_postgres_sql (model : Model) : String :=
  let name := model.name
  let flags := model.flags
  let cats := model.categories
  let cons := model.constraints
  let B := flags.length
  let pos := bitpos_map flags
  let max_mask := (1 <<< B) - 1
  let header := "-- ACBP Postgres SQL for model: " ++ name ++ "\n-- Flags:\n" ++
    String.intercalate "\n"
      (flags.map (fun f => "-- " ++ padTo24 f ++ " : bit " ++ toString (pos f))) ++ "\n"
  let helpers :=
    "\n-- === ACBP helpers (idempotent) ===\n" ++
    "CREATE OR REPLACE FUNCTION acbp_popcount(x bigint)\n" ++
    "RETURNS int\n" ++
    "LANGUAGE sql IMMUTABLE STRICT AS $$\n" ++
    "  SELECT length(replace((x)::bit(64)::text, \x270\x27,\x27\x27));\n" ++
    "$$;\n"
  let bit_pred_unq := predicate_sql_for_bit_constraints flags cons "mask"
  let cat_unq := cat_rule_preds flags cons "mask"
  let cat_preds_unq := cat_unq.1
  let cat_unions := cat_unq.2
  let have_cat_rules := cat_preds_unq.length > 0
  let bit_pred_m := predicate_sql_for_bit_constraints flags cons "m.mask"
  let cat_preds_m := (cat_rule_preds flags cons "m.mask").1
  let full_pred_m := if cat_preds_m = [] then "(" ++ bit_pred_m ++ ")"
    else "(" ++ bit_pred_m ++ ") AND (\n    " ++
      String.intercalate " AND\n    " cat_preds_m ++ "\n  )"
  let cats_cte := generate_categories_cte cats
  let cats_view :=
    "\n-- === Categories for " ++ name ++ " ===\n" ++
    "CREATE OR REPLACE VIEW \"" ++ name ++ "_categories\" AS\n" ++
    "WITH " ++ cats_cte ++ "\n" ++
    "SELECT * FROM cats;\n"
  let decision_space :=
    "\n-- === Decision space for " ++ name ++ " (PRUNED by bit + category rules) ===\n" ++
    "CREATE OR REPLACE VIEW \"" ++ name ++ "_decision_space\" AS\n" ++
    "WITH masks AS (\n" ++
    "  SELECT gs::bigint AS mask FROM generate_series(0, " ++ toString max_mask ++ ") gs\n" ++
    "),\n" ++
    cats_cte ++ "\n" ++
    "SELECT m.mask" ++ (if cats ≠ [] then ", c.*" else "") ++ "\n" ++
    "FROM masks m\n" ++
    (if cats ≠ [] then "CROSS JOIN cats c" else "") ++ "\n" ++
    "WHERE\n" ++
    "  " ++ full_pred_m ++ "\n" ++
    ";\n"
  let valid_masks_view :=
    "\n-- === Valid masks for " ++ name ++ " (derived from PRUNED decision space) ===\n" ++
    "CREATE OR REPLACE VIEW \"" ++ name ++ "_valid_masks\" AS\n" ++
    "SELECT DISTINCT mask FROM \"" ++ name ++ "_decision_space\";\n"
  let bitcols := String.intercalate ",\n  "
    (flags.map (fun f => "(" ++ bit_expr (pos f) "mask" ++ ") AS \"" ++ f ++ "\""))
  let explain_view :=
    "\n-- === Bit-explained view for " ++ name ++ " ===\n" ++
    "CREATE OR REPLACE VIEW \"" ++ name ++ "_explain\" AS\n" ++
    "SELECT\n" ++
    "  mask,\n" ++
    "  " ++ bitcols ++ "\n" ++
    "FROM \"" ++ name ++ "_valid_masks\";\n"
  let validator_fn :=
    "\n-- === Validator (bit-only) for " ++ name ++ " ===\n" ++
    "CREATE OR REPLACE FUNCTION \"acbp_is_valid__" ++ name ++ "\"(mask bigint)\n" ++
    "RETURNS boolean\n" ++
    "LANGUAGE sql IMMUTABLE STRICT AS $$\n" ++
    "  SELECT (" ++ bit_pred_unq ++ ");\n" ++
    "$$;\n"
  let bit_unions_sql := bit_explain_unions flags cons
  let explain_rules_fn :=
    "\n-- === Bit-only explainer for " ++ name ++ " ===\n" ++
    "CREATE OR REPLACE FUNCTION \"acbp_explain_rules__" ++ name ++ "\"(mask bigint)\n" ++
    "RETURNS TABLE(rule text, ok boolean)\n" ++
    "LANGUAGE sql IMMUTABLE STRICT AS $$\n" ++
    bit_unions_sql ++ "\n" ++
    "$$;\n"
  let cat_keys := cats.map (fun p => p.1)
  let cat_sig := String.intercalate ", " (cat_keys.map (fun k => k ++ " text"))
  let cat_validator := if have_cat_rules then
      let predicate_unq := String.intercalate " AND " (bit_pred_unq :: cat_preds_unq)
      "\n-- === Category-aware validator for " ++ name ++ " ===\n" ++
      "CREATE OR REPLACE FUNCTION \"acbp_is_valid__" ++ name ++ "_cats\"(mask bigint" ++
      (if cat_sig ≠ "" then ", " else "") ++ cat_sig ++ ")\n" ++
      "RETURNS boolean\n" ++
      "LANGUAGE sql IMMUTABLE STRICT AS $$\n" ++
      "  SELECT (" ++ predicate_unq ++ ");\n" ++
      "$$;\n"
    else ""
  let cat_explainer := if have_cat_rules then
      let cat_union_sql := if cat_unions = [] then "SELECT \x27TRUE\x27::text, TRUE::boolean"
        else String.intercalate "\nUNION ALL\n" cat_unions
      "\n-- === Category-aware explainer for " ++ name ++ " ===\n" ++
      "CREATE OR REPLACE FUNCTION \"acbp_explain__" ++ name ++ "\"(mask bigint" ++
      (if cat_sig ≠ "" then ", " else "") ++ cat_sig ++ ")\n" ++
      "RETURNS TABLE(rule text, ok boolean)\n" ++
      "LANGUAGE sql IMMUTABLE STRICT AS $$\n" ++
      "WITH bit_rules AS (\n" ++
      bit_unions_sql ++ "\n" ++
      "), cat_rules AS (\n" ++
      cat_union_sql ++ "\n" ++
      ")\n" ++
      "SELECT * FROM bit_rules\n" ++
      "UNION ALL\n" ++
      "SELECT * FROM cat_rules;\n" ++
      "$$;\n"
    else ""
  header ++ helpers ++ cats_view ++ decision_space ++ valid_masks_view ++
    explain_view ++ validator_fn ++ explain_rules_fn ++ cat_validator ++ cat_explainer

/-- The enumeration lines of `main` (`acbp_tester.py` lines 444–448): a
non-empty enumeration prints the count line, an empty one prints
"Enumeration skipped". -/
def enumeration_report (model : Model) (valid : List Nat) : String :=
  if valid ≠ [] then
    "  Valid masks enumerated (bit-only): " ++ toString valid.length ++ " / " ++
      toString (1 <<< model.flags.length)
  else
    "  Enumeration skipped (B>" ++ toString ((model.enumeration_limit_bits).getD 22) ++ ")."

/-! ### Specification-side notions and concrete example models -/

/-- One undirected edge of the reducer graph, between declared flags:
an EQUIV(a,b) edge or a mutually-implying IMPLIES pair (§4.1 of the spec). -/
def Step (flags : List String) (cons : List Constraint) (x y : String) : Prop :=
  x ∈ flags ∧ y ∈ flags ∧ adjacent cons x y = true

/-- Connectivity in the reducer graph: the reflexive-transitive closure of
`Step`.  Two flags lie in the same connected component iff `Reach` holds. -/
def Reach (flags : List String) (cons : List Constraint) : String → String → Prop :=
  Relation.ReflTransGen (Step flags cons)

/-- Invariant of the outer loop of `scc_equivalence`: the seen set is closed
under graph edges and is exactly the union of the collected components; every
collected component is the full connectivity class of some flag; no flag lies
in two components. -/
def SccInv (flags : List String) (cons : List Constraint)
    (acc : List String × List (List String)) : Prop :=
  (∀ a ∈ acc.1, ∀ b, Step flags cons a b → b ∈ acc.1) ∧
  (∀ x, x ∈ acc.1 ↔ ∃ c ∈ acc.2, x ∈ c) ∧
  (∀ c ∈ acc.2, ∃ r, r ∈ flags ∧ ∀ y, y ∈ c ↔ Reach flags cons r y) ∧
  (∀ x, acc.2.countP (fun c => x ∈ c) ≤ 1)

/-- `model.constraints` with every FORBID_IF_SQL rule removed (for stating
that such rules do not influence the numeric estimate). -/
def strip_fisql (cons : List Constraint) : List Constraint :=
  cons.filter (fun c => strUpper c.ctype ≠ "FORBID_IF_SQL")

/-- Flags [a,b] with MUTEX(a,b) — the enumeration example of the spec. -/
def mutexModel : Model := ⟨"mutex_demo", ["a", "b"], [], [Constraint.mutexC "a" "b"], none⟩

/-- Flags [a,b,c] with ONEOF([a,b,c]) — the ONEOF example of the spec. -/
def oneofModel : Model :=
  ⟨"oneof_demo", ["a", "b", "c"], [], [Constraint.oneofC ["a", "b", "c"]], none⟩

/-- A model whose single constraint carries an undeclared type tag. -/
def unknownTypeModel : Model :=
  ⟨"unknown_demo", ["a"], [], [⟨"FROBNICATE", "a", "a", [], "", [], ""⟩], none⟩

/-- Flags [a] with ONEOF([]) — unsatisfiable bit-only constraints, B ≤ limit. -/
def emptyOneofModel : Model := ⟨"empty_oneof", ["a"], [], [Constraint.oneofC []], none⟩

/-- 23 flags and no constraints: B = 23 exceeds the default limit 22. -/
def wideModel : Model :=
  ⟨"wide", (List.range 23).map (fun i => "f" ++ toString i), [], [], none⟩

/-- A model with a declared category whose value list is empty. -/
def emptyCatModel : Model := ⟨"emptycat", ["a"], [("site", [])], [], none⟩

/-- A model with a single FORBID_IF_SQL rule. -/
def fisqlModel : Model :=
  ⟨"fisql_demo", ["a"], [], [Constraint.forbidIfSqlC "a" "1=1"], none⟩

/-- A constraint-free, category-free, flag-free model: with it,
`theoretical_max` equals the length of whatever valid-mask list the estimator
is given, and the keep probability is exactly 1.0 (no float operation touches
it). -/
def bareModel : Model := ⟨"bare", [], [], [], none⟩

/-- A valid-mask list of length 2^53 + 3: a value congruent to 3 mod 4 just
above 2^53, whose nearest double is 2^53 + 4 (the tie at unit-in-last-place 2
rounds to the even quotient). -/
def hugeMaskList : List ℕ := List.replicate (2 ^ 53 + 3) 0

/-! ## Helper lemmas -/

theorem pyRound_nonneg {x : ℚ} (hx : 0 ≤ x) : 0 ≤ pyRound x := by
  have h0 : (0 : ℤ) ≤ ⌊x⌋ := Int.floor_nonneg.mpr hx
  unfold pyRound
  split_ifs <;> omega

theorem pyRound_le {x : ℚ} {n : ℤ} (hx : x ≤ (n : ℚ)) : pyRound x ≤ n := by
  have hfn : ⌊x⌋ ≤ n := by
    have := Int.floor_le_floor hx
    simpa using this
  unfold pyRound
  split_ifs with h1 h2 h3
  · exact hfn
  · have hhalf : (⌊x⌋ : ℚ) + 1 / 2 ≤ (n : ℚ) := by
      have hf := Int.floor_le x
      linarith
    have hlt : (⌊x⌋ : ℚ) < (n : ℚ) := by linarith
    have : ⌊x⌋ < n := by exact_mod_cast hlt
    omega
  · exact hfn
  · have hhalf : (⌊x⌋ : ℚ) + 1 / 2 ≤ (n : ℚ) := by
      have hf := Int.floor_le x
      linarith
    have hlt : (⌊x⌋ : ℚ) < (n : ℚ) := by linarith
    have : ⌊x⌋ < n := by exact_mod_cast hlt
    omega

theorem keep_prob_foldl_bounds (l : List ℚ) :
    ∀ a : ℚ, 0 ≤ a → a ≤ 1 →
      0 ≤ l.foldl (fun kp f => kp * (1 - max 0 (min 1 f))) a ∧
      l.foldl (fun kp f => kp * (1 - max 0 (min 1 f))) a ≤ 1 := by
  induction l with
  | nil => intro a h0 h1; exact ⟨h0, h1⟩
  | cons f l ih =>
    intro a h0 h1
    have hm0 : (0 : ℚ) ≤ max 0 (min 1 f) := le_max_left 0 _
    have hm1 : max 0 (min 1 f) ≤ 1 := max_le (by norm_num) (min_le_left 1 f)
    have hf0 : (0 : ℚ) ≤ 1 - max 0 (min 1 f) := by linarith
    have hf1 : 1 - max 0 (min 1 f) ≤ 1 := by linarith
    have hmul0 : 0 ≤ a * (1 - max 0 (min 1 f)) := mul_nonneg h0 hf0
    have hmul1 : a * (1 - max 0 (min 1 f)) ≤ 1 := by
      have := mul_le_mul h1 hf1 hf0 (by norm_num : (0 : ℚ) ≤ 1)
      simpa using this
    exact ih _ hmul0 hmul1

theorem keep_prob_bounds (l : List ℚ) : 0 ≤ keep_prob l ∧ keep_prob l ≤ 1 :=
  keep_prob_foldl_bounds l 1 (by norm_num) le_rfl

theorem foldl_mul_max_one (l : List (String × List String)) (a : ℕ) :
    l.foldl (fun n p => n * max 1 p.2.length) a =
      a * (l.map (fun p => max 1 p.2.length)).prod := by
  induction l generalizing a with
  | nil => simp
  | cons p l ih =>
    simp only [List.foldl_cons, List.map_cons, List.prod_cons, ih]
    ring

theorem count_category_leaves_eq (cats : List (String × List String)) :
    count_category_leaves cats = (cats.map (fun p => max 1 p.2.length)).prod := by
  unfold count_category_leaves
  split_ifs with h
  · simp [h]
  · rw [foldl_mul_max_one]
    simp

/-! ## Claims -/

/-- C1: the spec demands that a constraint whose type tag is not one of
IMPLIES, EQUIV, MUTEX, ONEOF, FORBID_WHEN, FORBID_IF_SQL be rejected at load
with a ModelFormatError, before enumeration or SQL emission.  The code has no
such check: this theorem evaluates the pipeline on a model whose only
constraint is tagged FROBNICATE and shows that enumeration proceeds and
treats the unknown constraint as imposing no restriction (both masks of the
one-flag model are accepted), and that the generated bit-only predicate is
the unrestricted `TRUE`. -/
theorem C1_unknown_type_silently_ignored :
    enumerate_valid_masks unknownTypeModel = [0, 1] ∧
    predicate_sql_for_bit_constraints unknownTypeModel.flags
      unknownTypeModel.constraints "mask" = "TRUE" := by
  constructor
  · decide
  · decide

/-- C8: compilation is deterministic — `enumerate_valid_masks` and
`emit_postgres_sql` are pure functions of the model value, so equal inputs
give identical mask sequences and byte-identical SQL text, with no ambient
state involved. -/
theorem C8_determinism (m₁ m₂ : Model) (h : m₁ = m₂) :
    enumerate_valid_masks m₁ = enumerate_valid_masks m₂ ∧
    emit_postgres_sql m₁ = emit_postgres_sql m₂ := by
  subst h; exact ⟨rfl, rfl⟩

theorem C8_determinism_witness :
    mutexModel = mutexModel ∧
    (enumerate_valid_masks mutexModel = enumerate_valid_masks mutexModel ∧
      emit_postgres_sql mutexModel = emit_postgres_sql mutexModel) :=
  ⟨rfl, C8_determinism mutexModel mutexModel rfl⟩

/-- C9: a fully enumerated model with zero valid masks is indistinguishable
from a skipped enumeration: flags [a] with ONEOF([]) has B = 1 ≤ 22 yet
enumerates to `[]`, the very value returned for a 23-flag model whose B
exceeds the limit, and the report in `main` consequently prints
"Enumeration skipped" for it. -/
theorem C9_skipped_indistinguishable :
    enumerate_valid_masks emptyOneofModel = ([] : List ℕ) ∧
    emptyOneofModel.flags.length ≤ (emptyOneofModel.enumeration_limit_bits).getD 22 ∧
    wideModel.flags.length > (wideModel.enumeration_limit_bits).getD 22 ∧
    enumerate_valid_masks emptyOneofModel = enumerate_valid_masks wideModel ∧
    enumeration_report emptyOneofModel (enumerate_valid_masks emptyOneofModel) =
      "  Enumeration skipped (B>22)." := by
  refine ⟨by decide, by decide, by decide, by decide, by decide⟩

/-- C5 counterexample: for a model declaring a category with an empty value
list, `estimate_sanity` reports `theoretical_max = 1` for one valid mask,
whereas |valid_masks| × Π(cardinality) = 1 × 0 = 0 — the code uses
`max(1, len(vals))`, not the raw cardinality. -/
theorem C5_counterexample :
    ¬ ((estimate_sanity emptyCatModel [0]).theoretical_max =
        ([0] : List ℕ).length *
          (emptyCatModel.categories.map (fun p => p.2.length)).prod) := by
  decide

/-- C5 (amended): `theoretical_max` equals |valid_masks| × Π(max(1,
cardinality of each declared category)) — each category counts as at least
one leaf, so an empty category contributes factor 1, as does an empty
mapping — and the reported `n_eff` (`count_category_leaves`) equals the same
product of clamped cardinalities. -/
theorem C5_theoretical_max_amended (model : Model) (valid_masks : List ℕ) :
    (estimate_sanity model valid_masks).theoretical_max =
      valid_masks.length *
        (model.categories.map (fun p => max 1 p.2.length)).prod ∧
    count_category_leaves model.categories =
      (model.categories.map (fun p => max 1 p.2.length)).prod := by
  refine ⟨?_, count_category_leaves_eq _⟩
  simp [estimate_sanity, count_category_leaves_eq]

/-- C10: on an empty valid-mask list the estimator is total and guarded:
every prevalence is 0 (no division by zero), `theoretical_max` is 0, the
percentage is 0 because of the `theoretical_max > 0` guard, and the
remaining/pruned estimates are 0; the full result record is produced. -/
theorem C10_estimator_total_on_empty (model : Model) :
    (estimate_sanity model []).prev = model.flags.map (fun f => (f, (0 : ℚ))) ∧
    (∀ f : String, prev_get model.flags [] f = 0) ∧
    (estimate_sanity model []).theoretical_max = 0 ∧
    (estimate_sanity model []).est_remaining = 0 ∧
    (estimate_sanity model []).est_pruned = 0 ∧
    (estimate_sanity model []).est_pct = 0 := by
  refine ⟨?_, ?_, ?_, ?_, ?_, ?_⟩
  · simp [estimate_sanity, prev_assoc, prev_val]
  · intro f
    simp [prev_get, prev_val]
  · simp [estimate_sanity]
  · simp [estimate_sanity, toDouble, pyRound]
  · simp [estimate_sanity, toDouble, pyRound]
  · simp [estimate_sanity]

theorem toDouble_of_le {n : ℕ} (h : n ≤ 2 ^ 53) : toDouble n = n := by
  unfold toDouble
  rw [if_pos h]

theorem pyRound_natCast (n : ℕ) : pyRound ((n : ℕ) : ℚ) = n := by
  unfold pyRound
  rw [Int.floor_natCast]
  norm_num

/-- The `theoretical_max` field of the estimator result, stated for arbitrary
arguments (definitional). -/
theorem estimate_theoretical_max (model : Model) (masks : List ℕ) :
    (estimate_sanity model masks).theoretical_max =
      max 0 masks.length * count_category_leaves model.categories := rfl

/-- The `est_remaining` field of the estimator result, stated for arbitrary
arguments (definitional). -/
theorem estimate_est_remaining (model : Model) (masks : List ℕ) :
    (estimate_sanity model masks).est_remaining =
      pyRound ((toDouble (max 0 masks.length * count_category_leaves model.categories) : ℚ) *
        keep_prob (forbid_fracs model.flags model.categories model.constraints masks)) := rfl

/-- The `est_pruned` field of the estimator result, stated for arbitrary
arguments (definitional). -/
theorem estimate_est_pruned (model : Model) (masks : List ℕ) :
    (estimate_sanity model masks).est_pruned =
      ((estimate_sanity model masks).theoretical_max : ℤ) -
        (estimate_sanity model masks).est_remaining := rfl

/-- With no constraints there are no FORBID_WHEN fractions and the keep
probability is exactly 1.0 (no float operation touches it). -/
theorem keep_prob_of_no_rules (flags : List String)
    (cats : List (String × List String)) (masks : List ℕ) :
    keep_prob (forbid_fracs flags cats [] masks) = 1 := rfl

/-- C6 counterexample: the source computes
`est_remaining = int(round(theoretical_max * keep_prob))`, and the int
operand is converted to an IEEE double before multiplying.  For the
constraint-free model with 2^53 + 3 valid masks (a value just above the
double-exact range, congruent to 3 mod 4) the keep probability is exactly
1.0, the conversion rounds 2^53 + 3 up to 2^53 + 4, and so
`est_remaining = theoretical_max + 1 > theoretical_max` and
`est_pruned = −1 < 0`: both claimed bounds are false at this input. -/
theorem C6_float_rounding_counterexample :
    (estimate_sanity bareModel hugeMaskList).theoretical_max = 2 ^ 53 + 3 ∧
    (estimate_sanity bareModel hugeMaskList).est_remaining = 2 ^ 53 + 4 ∧
    (estimate_sanity bareModel hugeMaskList).est_pruned = -1 ∧
    ¬ ((estimate_sanity bareModel hugeMaskList).est_remaining ≤
        ((estimate_sanity bareModel hugeMaskList).theoretical_max : ℤ)) ∧
    ¬ (0 ≤ (estimate_sanity bareModel hugeMaskList).est_pruned) := by
  have htd : toDouble (2 ^ 53 + 3) = 2 ^ 53 + 4 := by decide
  have hlen : hugeMaskList.length = 2 ^ 53 + 3 := List.length_replicate _ _
  have hcnt : count_category_leaves bareModel.categories = 1 := rfl
  have hcons : bareModel.constraints = [] := rfl
  have h1 : (estimate_sanity bareModel hugeMaskList).theoretical_max = 2 ^ 53 + 3 := by
    rw [estimate_theoretical_max, hlen, hcnt, Nat.zero_max, mul_one]
  have h2 : (estimate_sanity bareModel hugeMaskList).est_remaining = 2 ^ 53 + 4 := by
    rw [estimate_est_remaining, hcons, keep_prob_of_no_rules, mul_one, hlen, hcnt,
      Nat.zero_max, mul_one, htd, pyRound_natCast]
    push_cast
  have h3v : (estimate_sanity bareModel hugeMaskList).est_pruned = -1 := by
    rw [estimate_est_pruned, h1, h2]
    push_cast
  refine ⟨h1, h2, h3v, ?_, ?_⟩
  · rw [h1, h2]
    push_cast
    norm_num
  · rw [h3v]
    norm_num

/-- C6 (amended): the keep probability — the product of `1 − pruned_fraction`
with each fraction clamped to [0,1] — lies in [0,1], and
`est_pruned = theoretical_max − est_remaining` always; `est_remaining` is
non-negative and bounded by the IEEE double nearest to `theoretical_max`
(the value the source actually multiplies by the keep probability); whenever
`theoretical_max ≤ 2^53` — the range in which every int is exactly
representable as a double — the conversion is the identity and the original
bounds `est_remaining ≤ theoretical_max` and `est_pruned ≥ 0` hold. -/
theorem C6_estimator_bounds_amended (model : Model) (valid_masks : List ℕ) :
    0 ≤ keep_prob (forbid_fracs model.flags model.categories model.constraints valid_masks) ∧
    keep_prob (forbid_fracs model.flags model.categories model.constraints valid_masks) ≤ 1 ∧
    0 ≤ (estimate_sanity model valid_masks).est_remaining ∧
    (estimate_sanity model valid_masks).est_remaining ≤
      ((toDouble (estimate_sanity model valid_masks).theoretical_max : ℕ) : ℤ) ∧
    (estimate_sanity model valid_masks).est_pruned =
      ((estimate_sanity model valid_masks).theoretical_max : ℤ) -
        (estimate_sanity model valid_masks).est_remaining ∧
    ((estimate_sanity model valid_masks).theoretical_max ≤ 2 ^ 53 →
      (estimate_sanity model valid_masks).est_remaining ≤
        ((estimate_sanity model valid_masks).theoretical_max : ℤ) ∧
      0 ≤ (estimate_sanity model valid_masks).est_pruned) := by
  obtain ⟨hkp0, hkp1⟩ :=
    keep_prob_bounds (forbid_fracs model.flags model.categories model.constraints valid_masks)
  have hremproj : (estimate_sanity model valid_masks).est_remaining =
      pyRound ((toDouble (max 0 valid_masks.length * count_category_leaves model.categories) : ℚ) *
        keep_prob (forbid_fracs model.flags model.categories model.constraints valid_masks)) := rfl
  have htmproj : (estimate_sanity model valid_masks).theoretical_max =
      max 0 valid_masks.length * count_category_leaves model.categories := rfl
  have hprunproj : (estimate_sanity model valid_masks).est_pruned =
      ((estimate_sanity model valid_masks).theoretical_max : ℤ) -
        (estimate_sanity model valid_masks).est_remaining := rfl
  have h0 : 0 ≤ (estimate_sanity model valid_masks).est_remaining := by
    rw [hremproj]
    exact pyRound_nonneg (mul_nonneg (Nat.cast_nonneg _) hkp0)
  have hle : (estimate_sanity model valid_masks).est_remaining ≤
      ((toDouble (estimate_sanity model valid_masks).theoretical_max : ℕ) : ℤ) := by
    rw [hremproj, htmproj]
    apply pyRound_le
    push_cast
    exact mul_le_of_le_one_right (Nat.cast_nonneg _) hkp1
  refine ⟨hkp0, hkp1, h0, hle, hprunproj, ?_⟩
  intro h
  have hsmall : toDouble (estimate_sanity model valid_masks).theoretical_max =
      (estimate_sanity model valid_masks).theoretical_max := toDouble_of_le h
  rw [hsmall] at hle
  exact ⟨hle, by rw [hprunproj]; omega⟩

theorem C6_estimator_bounds_amended_witness :
    (estimate_sanity mutexModel [0, 1, 2]).theoretical_max ≤ 2 ^ 53 ∧
    ((estimate_sanity mutexModel [0, 1, 2]).est_remaining ≤
        ((estimate_sanity mutexModel [0, 1, 2]).theoretical_max : ℤ) ∧
      0 ≤ (estimate_sanity mutexModel [0, 1, 2]).est_pruned) :=
  ⟨by decide,
    (C6_estimator_bounds_amended mutexModel [0, 1, 2]).2.2.2.2.2 (by decide)⟩

theorem forbid_fracs_strip (flags : List String) (cats : List (String × List String))
    (cons : List Constraint) (masks : List ℕ) :
    forbid_fracs flags cats (strip_fisql cons) masks = forbid_fracs flags cats cons masks := by
  induction cons with
  | nil => rfl
  | cons c l ih =>
    by_cases h : strUpper c.ctype = "FORBID_IF_SQL"
    · have hnw : ¬ strUpper c.ctype = "FORBID_WHEN" := by rw [h]; decide
      simp [strip_fisql, forbid_fracs, List.filter_cons, List.filterMap_cons, h, hnw] at ih ⊢
      exact ih
    · by_cases hw : strUpper c.ctype = "FORBID_WHEN"
      · simp [strip_fisql, forbid_fracs, List.filter_cons, List.filterMap_cons, h, hw] at ih ⊢
        exact ih
      · simp [strip_fisql, forbid_fracs, List.filter_cons, List.filterMap_cons, h, hw] at ih ⊢
        exact ih

/-- C7: FORBID_IF_SQL rules contribute nothing to the numeric estimate —
removing them all changes neither `est_remaining` nor `est_pruned` — and
whenever at least one is present, the notes contain the message reporting the
exact count of excluded FORBID_IF_SQL rules. -/
theorem C7_fisql_excluded (model : Model) (valid_masks : List ℕ) :
    (estimate_sanity { model with constraints := strip_fisql model.constraints }
        valid_masks).est_remaining = (estimate_sanity model valid_masks).est_remaining ∧
    (estimate_sanity { model with constraints := strip_fisql model.constraints }
        valid_masks).est_pruned = (estimate_sanity model valid_masks).est_pruned ∧
    (0 < fisql_count model.constraints →
      ("Excluded " ++ toString (fisql_count model.constraints) ++
          " FORBID_IF_SQL rule(s) from estimate.") ∈
        (estimate_sanity model valid_masks).notes) := by
  refine ⟨?_, ?_, ?_⟩
  · simp [estimate_sanity, forbid_fracs_strip]
  · simp [estimate_sanity, forbid_fracs_strip]
  · intro h
    have hne : fisql_count model.constraints ≠ 0 := Nat.pos_iff_ne_zero.mp h
    simp only [estimate_sanity, estimate_notes]
    apply List.mem_append_right
    rw [if_pos hne]
    exact List.mem_singleton.mpr rfl

theorem C7_fisql_excluded_witness :
    0 < fisql_count fisqlModel.constraints ∧
    ("Excluded " ++ toString (fisql_count fisqlModel.constraints) ++
        " FORBID_IF_SQL rule(s) from estimate.") ∈
      (estimate_sanity fisqlModel [0]).notes :=
  ⟨by decide, (C7_fisql_excluded fisqlModel [0]).2.2 (by decide)⟩

theorem bit_le_one (mask p : ℕ) : bit mask p ≤ 1 := by
  unfold bit
  rw [Nat.and_one_is_mod]
  omega

theorem sum_bits_eq_countP (pos : String → ℕ) (mask : ℕ) (l : List String) :
    (l.map (fun f => bit mask (pos f))).sum =
      l.countP (fun f => bit mask (pos f) == 1) := by
  induction l with
  | nil => simp
  | cons f l ih =>
    have hb := bit_le_one mask (pos f)
    by_cases h : bit mask (pos f) = 1
    · simp [List.countP_cons, h, ih]
      omega
    · have h0 : bit mask (pos f) = 0 := by omega
      simp [List.countP_cons, h0, ih]

/-- C2: with B = |flags| and limit = `enumeration_limit_bits` (default 22):
if B > limit the enumerator returns the empty list (skip, not an error);
if B ≤ limit it returns exactly the masks below `2^B` passing every
bit-only constraint check, in strictly ascending order (hence without
duplicates, all non-negative and at most `2^B − 1`). -/
theorem C2_enumeration_contract (model : Model) :
    (model.flags.length > (model.enumeration_limit_bits).getD 22 →
      enumerate_valid_masks model = []) ∧
    (model.flags.length ≤ (model.enumeration_limit_bits).getD 22 →
      List.Pairwise (· < ·) (enumerate_valid_masks model) ∧
      (∀ m : ℕ, m ∈ enumerate_valid_masks model ↔
        (m < 2 ^ model.flags.length ∧
          ∀ c ∈ model.constraints,
            constraint_ok (bitpos_map model.flags) m c = true))) := by
  constructor
  · intro h
    simp [enumerate_valid_masks, if_pos h]
  · intro h
    have hnot : ¬ model.flags.length > (model.enumeration_limit_bits).getD 22 := by omega
    have henum : enumerate_valid_masks model =
        (List.range (1 <<< model.flags.length)).filter (fun m => ok model m) := by
      simp [enumerate_valid_masks, if_neg hnot]
    constructor
    · rw [henum]
      exact (List.pairwise_lt_range _).sublist (List.filter_sublist _)
    · intro m
      rw [henum, List.mem_filter, List.mem_range, Nat.one_shiftLeft]
      constructor
      · rintro ⟨hlt, hok⟩
        refine ⟨hlt, ?_⟩
        intro c hc
        exact List.all_eq_true.mp hok c hc
      · rintro ⟨hlt, hall⟩
        exact ⟨hlt, List.all_eq_true.mpr hall⟩

theorem C2_enumeration_contract_witness :
    (mutexModel.flags.length ≤ (mutexModel.enumeration_limit_bits).getD 22 ∧
      List.Pairwise (· < ·) (enumerate_valid_masks mutexModel) ∧
      (3 ∈ enumerate_valid_masks mutexModel ↔
        (3 < 2 ^ mutexModel.flags.length ∧
          ∀ c ∈ mutexModel.constraints,
            constraint_ok (bitpos_map mutexModel.flags) 3 c = true))) ∧
    (wideModel.flags.length > (wideModel.enumeration_limit_bits).getD 22 ∧
      enumerate_valid_masks wideModel = []) :=
  ⟨⟨by decide, ((C2_enumeration_contract mutexModel).2 (by decide)).1,
      ((C2_enumeration_contract mutexModel).2 (by decide)).2 3⟩,
   by decide, (C2_enumeration_contract wideModel).1 (by decide)⟩

/-- C3: the per-constraint checks of the enumerator match the table of the spec —
IMPLIES(a,b) fails iff bit(a)=1 and bit(b)=0; EQUIV fails iff the bits
differ; MUTEX fails iff both bits are set; ONEOF(S) fails iff the number of
set flags of S is not exactly one — and the two concrete enumerations of the
spec come out exactly as stated: MUTEX on two flags gives [0,1,2] and ONEOF
on three flags gives [1,2,4]. -/
theorem C3_constraint_table :
    (∀ (pos : String → ℕ) (mask : ℕ) (c : Constraint), strUpper c.ctype = "IMPLIES" →
      (constraint_ok pos mask c = false ↔
        (bit mask (pos c.a) = 1 ∧ bit mask (pos c.b) = 0))) ∧
    (∀ (pos : String → ℕ) (mask : ℕ) (c : Constraint), strUpper c.ctype = "EQUIV" →
      (constraint_ok pos mask c = false ↔
        bit mask (pos c.a) ≠ bit mask (pos c.b))) ∧
    (∀ (pos : String → ℕ) (mask : ℕ) (c : Constraint), strUpper c.ctype = "MUTEX" →
      (constraint_ok pos mask c = false ↔
        (bit mask (pos c.a) = 1 ∧ bit mask (pos c.b) = 1))) ∧
    (∀ (pos : String → ℕ) (mask : ℕ) (c : Constraint), strUpper c.ctype = "ONEOF" →
      (constraint_ok pos mask c = false ↔
        c.cflags.countP (fun f => bit mask (pos f) == 1) ≠ 1)) ∧
    enumerate_valid_masks mutexModel = [0, 1, 2] ∧
    enumerate_valid_masks oneofModel = [1, 2, 4] := by
  refine ⟨?_, ?_, ?_, ?_, by decide, by decide⟩
  · intro pos mask c h
    simp [constraint_ok, h]
  · intro pos mask c h
    have h1 : ¬ ("EQUIV" : String) = "IMPLIES" := by decide
    simp [constraint_ok, h, h1]
  · intro pos mask c h
    have ha := bit_le_one mask (pos c.a)
    have hb := bit_le_one mask (pos c.b)
    simp [constraint_ok, h]
    omega
  · intro pos mask c h
    simp [constraint_ok, h, sum_bits_eq_countP]

theorem C3_constraint_table_witness :
    strUpper (Constraint.mutexC "a" "b").ctype = "MUTEX" ∧
    (constraint_ok (bitpos_map ["a", "b"]) 3 (Constraint.mutexC "a" "b") = false ↔
      (bit 3 (bitpos_map ["a", "b"] (Constraint.mutexC "a" "b").a) = 1 ∧
        bit 3 (bitpos_map ["a", "b"] (Constraint.mutexC "a" "b").b) = 1)) :=
  ⟨by decide, C3_constraint_table.2.2.1 (bitpos_map ["a", "b"]) 3
    (Constraint.mutexC "a" "b") (by decide)⟩

/-! ## Equivalence-reducer correctness (C4) -/

theorem equiv_edge_symm (cons : List Constraint) (x y : String) :
    equiv_edge cons x y = equiv_edge cons y x := by
  unfold equiv_edge
  congr 1
  funext c
  rw [Bool.or_comm]

theorem adjacent_symm (cons : List Constraint) (x y : String) :
    adjacent cons x y = adjacent cons y x := by
  unfold adjacent
  rw [equiv_edge_symm, Bool.and_comm]

theorem step_symmetric {flags : List String} {cons : List Constraint} :
    Symmetric (Step flags cons) := by
  rintro x y ⟨hx, hy, hadj⟩
  refine ⟨hy, hx, ?_⟩
  rw [adjacent_symm]
  exact hadj

theorem reach_symmetric {flags : List String} {cons : List Constraint} :
    Symmetric (Reach flags cons) :=
  Relation.ReflTransGen.symmetric step_symmetric

theorem reach_mem_flags {flags : List String} {cons : List Constraint} {x y : String}
    (hx : x ∈ flags) (h : Reach flags cons x y) : y ∈ flags := by
  induction h with
  | refl => exact hx
  | tail _ hstep ih => exact hstep.2.1

theorem mem_neighbors {flags : List String} {cons : List Constraint} {x y : String} :
    y ∈ neighbors flags cons x ↔ Step flags cons x y := by
  unfold neighbors Step
  by_cases hx : x ∈ flags
  · simp only [if_pos hx, List.mem_filter]
    constructor
    · rintro ⟨h1, h2⟩; exact ⟨hx, h1, h2⟩
    · rintro ⟨_, h1, h2⟩; exact ⟨h1, h2⟩
  · simp only [if_neg hx, List.not_mem_nil, false_iff]
    rintro ⟨h, _, _⟩
    exact hx h

theorem dfs_shape (flags : List String) (cons : List Constraint) :
    ∀ (fuel : ℕ) (stack seen comp : List String),
      ∃ new : List String,
        (dfs flags cons fuel stack seen comp).1 = new ++ seen ∧
        (dfs flags cons fuel stack seen comp).2 = new ++ comp ∧
        ∀ y ∈ new, y ∉ seen := by
  intro fuel
  induction fuel with
  | zero =>
    intro stack seen comp
    cases stack with
    | nil => exact ⟨[], by simp [dfs], by simp [dfs], by simp⟩
    | cons x rest => exact ⟨[], by simp [dfs], by simp [dfs], by simp⟩
  | succ fuel ih =>
    intro stack seen comp
    cases stack with
    | nil => exact ⟨[], by simp [dfs], by simp [dfs], by simp⟩
    | cons x rest =>
      by_cases hx : x ∈ seen
      · obtain ⟨new, h1, h2, h3⟩ := ih rest seen comp
        exact ⟨new, by simp [dfs, hx, h1], by simp [dfs, hx, h2], h3⟩
      · obtain ⟨new, h1, h2, h3⟩ :=
          ih ((neighbors flags cons x).filter (fun y => y ∉ x :: seen) ++ rest)
            (x :: seen) (x :: comp)
        refine ⟨new ++ [x], ?_, ?_, ?_⟩
        · simp only [dfs, if_neg hx]
          rw [h1]
          simp
        · simp only [dfs, if_neg hx]
          rw [h2]
          simp
        · intro y hy
          rcases List.mem_append.mp hy with h | h
          · have hy2 := h3 y h
            intro hcon
            exact hy2 (List.mem_cons_of_mem _ hcon)
          · have : y = x := List.mem_singleton.mp h
            subst this
            exact hx

theorem dfs_sound (flags : List String) (cons : List Constraint) :
    ∀ (fuel : ℕ) (stack seen comp : List String) (y : String),
      y ∈ (dfs flags cons fuel stack seen comp).1 →
      y ∈ seen ∨ ∃ s ∈ stack, Reach flags cons s y := by
  intro fuel
  induction fuel with
  | zero =>
    intro stack seen comp y hy
    cases stack with
    | nil => simp [dfs] at hy; exact Or.inl hy
    | cons x rest => simp [dfs] at hy; exact Or.inl hy
  | succ fuel ih =>
    intro stack seen comp y hy
    cases stack with
    | nil => simp [dfs] at hy; exact Or.inl hy
    | cons x rest =>
      by_cases hx : x ∈ seen
      · simp only [dfs, if_pos hx] at hy
        rcases ih _ _ _ _ hy with h | ⟨s, hs, hr⟩
        · exact Or.inl h
        · exact Or.inr ⟨s, List.mem_cons_of_mem _ hs, hr⟩
      · simp only [dfs, if_neg hx] at hy
        rcases ih _ _ _ _ hy with h | ⟨s, hs, hr⟩
        · rcases List.mem_cons.mp h with h | h
          · subst h
            exact Or.inr ⟨y, List.mem_cons_self _ _, Relation.ReflTransGen.refl⟩
          · exact Or.inl h
        · rcases List.mem_append.mp hs with h | h
          · have hstep : Step flags cons x s :=
              mem_neighbors.mp (List.mem_filter.mp h).1
            exact Or.inr ⟨x, List.mem_cons_self _ _, Relation.ReflTransGen.head hstep hr⟩
          · exact Or.inr ⟨s, List.mem_cons_of_mem _ h, hr⟩

theorem countP_lt_of_witness {α : Type} (l : List α) (p q : α → Bool)
    (hpq : ∀ a ∈ l, q a = true → p a = true) (a : α) (ha : a ∈ l)
    (hpa : p a = true) (hqa : q a = false) : l.countP q < l.countP p := by
  induction l with
  | nil => cases ha
  | cons b l ih =>
    rcases List.mem_cons.mp ha with h | h
    · subst h
      have hmono : l.countP q ≤ l.countP p :=
        List.countP_mono_left (fun x hx => hpq x (List.mem_cons_of_mem _ hx))
      simp [List.countP_cons, hpa, hqa]
      omega
    · have hlt := ih (fun x hx => hpq x (List.mem_cons_of_mem _ hx)) h
      simp only [List.countP_cons]
      by_cases hqb : q b = true
      · have hpb := hpq b (List.mem_cons_self _ _) hqb
        simp [hqb, hpb]
        omega
      · simp only [Bool.not_eq_true] at hqb
        simp [hqb]
        omega

theorem unseen_lt (flags seen : List String) (x : String)
    (hxf : x ∈ flags) (hxs : x ∉ seen) :
    (flags.filter (fun y => y ∉ x :: seen)).length <
      (flags.filter (fun y => y ∉ seen)).length := by
  rw [← List.countP_eq_length_filter, ← List.countP_eq_length_filter]
  refine countP_lt_of_witness flags _ _ ?_ x hxf ?_ ?_
  · intro a _ h
    simp only [decide_eq_true_eq] at h ⊢
    intro hc
    exact h (List.mem_cons_of_mem _ hc)
  · simpa using hxs
  · simp

theorem unseen_eq (flags seen : List String) (x : String) (hxf : x ∉ flags) :
    flags.filter (fun y => y ∉ x :: seen) = flags.filter (fun y => y ∉ seen) := by
  apply List.filter_congr
  intro y hy
  have hne : y ≠ x := fun h => hxf (h ▸ hy)
  simp [List.mem_cons, hne]

theorem push_length_le (flags : List String) (cons : List Constraint) (x : String)
    (pred : String → Bool) :
    ((neighbors flags cons x).filter pred).length ≤ flags.length := by
  calc ((neighbors flags cons x).filter pred).length
      ≤ (neighbors flags cons x).length := List.length_filter_le _ _
    _ ≤ flags.length := by
        unfold neighbors
        split
        · exact List.length_filter_le _ _
        · simp

theorem dfs_seen_subset (flags : List String) (cons : List Constraint)
    (fuel : ℕ) (stack seen comp : List String) :
    seen ⊆ (dfs flags cons fuel stack seen comp).1 := by
  obtain ⟨new, h1, _, _⟩ := dfs_shape flags cons fuel stack seen comp
  rw [h1]
  exact List.subset_append_right _ _

theorem dfs_closed (flags : List String) (cons : List Constraint) :
    ∀ (fuel : ℕ) (stack seen comp : List String),
      dfs_measure flags seen stack ≤ fuel →
      (∀ a ∈ seen, ∀ b, Step flags cons a b → b ∈ seen ∨ b ∈ stack) →
      (∀ a ∈ (dfs flags cons fuel stack seen comp).1, ∀ b, Step flags cons a b →
          b ∈ (dfs flags cons fuel stack seen comp).1) ∧
      (∀ s ∈ stack, s ∈ (dfs flags cons fuel stack seen comp).1) := by
  intro fuel
  induction fuel with
  | zero =>
    intro stack seen comp hfuel hinv
    cases stack with
    | nil =>
      refine ⟨?_, by simp⟩
      intro a ha b hb
      simp only [dfs] at ha ⊢
      rcases hinv a ha b hb with h | h
      · exact h
      · cases h
    | cons x rest =>
      exfalso
      unfold dfs_measure at hfuel
      simp [List.length_cons] at hfuel
  | succ fuel ih =>
    intro stack seen comp hfuel hinv
    cases stack with
    | nil =>
      refine ⟨?_, by simp⟩
      intro a ha b hb
      simp only [dfs] at ha ⊢
      rcases hinv a ha b hb with h | h
      · exact h
      · cases h
    | cons x rest =>
      by_cases hx : x ∈ seen
      · have hinv' : ∀ a ∈ seen, ∀ b, Step flags cons a b → b ∈ seen ∨ b ∈ rest := by
          intro a ha b hb
          rcases hinv a ha b hb with h | h
          · exact Or.inl h
          · rcases List.mem_cons.mp h with h | h
            · subst h; exact Or.inl hx
            · exact Or.inr h
        have hfuel' : dfs_measure flags seen rest ≤ fuel := by
          unfold dfs_measure at hfuel ⊢
          simp only [List.length_cons] at hfuel
          omega
        have hres := ih rest seen comp hfuel' hinv'
        constructor
        · intro a ha b hb
          simp only [dfs, if_pos hx] at ha ⊢
          exact hres.1 a ha b hb
        · intro s hs
          simp only [dfs, if_pos hx]
          rcases List.mem_cons.mp hs with h | h
          · subst h
            exact dfs_seen_subset flags cons fuel rest seen comp hx
          · exact hres.2 s h
      · set stack' := (neighbors flags cons x).filter (fun y => y ∉ x :: seen) with hstack'
        have hinv' : ∀ a ∈ x :: seen, ∀ b, Step flags cons a b →
            b ∈ x :: seen ∨ b ∈ stack' ++ rest := by
          intro a ha b hb
          rcases List.mem_cons.mp ha with h | h
          · rw [h] at hb
            by_cases hbs : b ∈ x :: seen
            · exact Or.inl hbs
            · refine Or.inr (List.mem_append_left _ ?_)
              rw [hstack']
              refine List.mem_filter.mpr ⟨mem_neighbors.mpr hb, by simpa using hbs⟩
          · rcases hinv a h b hb with h2 | h2
            · exact Or.inl (List.mem_cons_of_mem _ h2)
            · rcases List.mem_cons.mp h2 with h3 | h3
              · subst h3; exact Or.inl (List.mem_cons_self _ _)
              · exact Or.inr (List.mem_append_right _ h3)
        have hfuel' : dfs_measure flags (x :: seen) (stack' ++ rest) ≤ fuel := by
          by_cases hxf : x ∈ flags
          · have hu := unseen_lt flags seen x hxf hx
            have hp : stack'.length ≤ flags.length := push_length_le flags cons x _
            unfold dfs_measure at hfuel ⊢
            rw [List.length_append]
            set u' := (flags.filter (fun y => y ∉ x :: seen)).length with hu'
            set u := (flags.filter (fun y => y ∉ seen)).length with hu2
            have hmul : (u' + 1) * (flags.length + 1) ≤ u * (flags.length + 1) :=
              Nat.mul_le_mul_right _ hu
            rw [add_mul, one_mul] at hmul
            simp only [List.length_cons] at hfuel
            set A := u' * (flags.length + 1)
            set B := u * (flags.length + 1)
            omega
          · have hnil : stack' = [] := by
              rw [hstack']
              unfold neighbors
              rw [if_neg hxf]
              rfl
            have hue := unseen_eq flags seen x hxf
            unfold dfs_measure at hfuel ⊢
            rw [hnil, hue]
            simp only [List.nil_append, List.length_cons] at hfuel ⊢
            omega
        have hres := ih (stack' ++ rest) (x :: seen) (x :: comp) hfuel' hinv'
        constructor
        · intro a ha b hb
          simp only [dfs, if_neg hx] at ha ⊢
          exact hres.1 a ha b hb
        · intro s hs
          simp only [dfs, if_neg hx]
          rcases List.mem_cons.mp hs with h | h
          · subst h
            exact dfs_seen_subset flags cons fuel _ _ _ (List.mem_cons_self _ _)
          · exact hres.2 s (List.mem_append_right _ h)

theorem reach_stays {flags : List String} {cons : List Constraint} {seen : List String}
    (hcl : ∀ a ∈ seen, ∀ b, Step flags cons a b → b ∈ seen) {y z : String}
    (hy : y ∈ seen) (h : Reach flags cons y z) : z ∈ seen := by
  induction h with
  | refl => exact hy
  | tail _ hstep ih => exact hcl _ ih _ hstep

theorem dfs_fuel_sufficient (flags seen : List String) (f : String) :
    dfs_measure flags seen [f] ≤ dfs_fuel flags := by
  unfold dfs_measure dfs_fuel
  have h : (flags.filter (fun y => y ∉ seen)).length ≤ flags.length :=
    List.length_filter_le _ _
  have hmul : (flags.filter (fun y => y ∉ seen)).length * (flags.length + 1) ≤
      flags.length * (flags.length + 1) := Nat.mul_le_mul_right _ h
  simp only [List.length_cons, List.length_nil]
  omega

theorem dfs_component (flags : List String) (cons : List Constraint)
    (f : String) (seen : List String)
    (_hf : f ∈ flags) (hfs : f ∉ seen)
    (hcl : ∀ a ∈ seen, ∀ b, Step flags cons a b → b ∈ seen) :
    (∀ y, y ∈ (dfs flags cons (dfs_fuel flags) [f] seen []).2 ↔ Reach flags cons f y) ∧
    (dfs flags cons (dfs_fuel flags) [f] seen []).1 =
      (dfs flags cons (dfs_fuel flags) [f] seen []).2 ++ seen ∧
    (∀ a ∈ (dfs flags cons (dfs_fuel flags) [f] seen []).1, ∀ b,
      Step flags cons a b → b ∈ (dfs flags cons (dfs_fuel flags) [f] seen []).1) ∧
    (∀ y ∈ (dfs flags cons (dfs_fuel flags) [f] seen []).2, y ∉ seen) := by
  obtain ⟨new, h1, h2, h3⟩ := dfs_shape flags cons (dfs_fuel flags) [f] seen []
  rw [List.append_nil] at h2
  have hinv : ∀ a ∈ seen, ∀ b, Step flags cons a b → b ∈ seen ∨ b ∈ [f] :=
    fun a ha b hb => Or.inl (hcl a ha b hb)
  obtain ⟨hclosure, hstack⟩ :=
    dfs_closed flags cons (dfs_fuel flags) [f] seen []
      (dfs_fuel_sufficient flags seen f) hinv
  have hfseen : f ∈ (dfs flags cons (dfs_fuel flags) [f] seen []).1 :=
    hstack f (List.mem_singleton.mpr rfl)
  have hmem : ∀ y, y ∈ (dfs flags cons (dfs_fuel flags) [f] seen []).2 ↔
      Reach flags cons f y := by
    intro y
    constructor
    · intro hy
      rw [h2] at hy
      have hyr : y ∈ (dfs flags cons (dfs_fuel flags) [f] seen []).1 := by
        rw [h1]
        exact List.mem_append_left _ hy
      rcases dfs_sound flags cons (dfs_fuel flags) [f] seen [] y hyr with h | ⟨s, hs, hr⟩
      · exact absurd h (h3 y hy)
      · rw [List.mem_singleton.mp hs] at hr
        exact hr
    · intro hr
      have hy1 : y ∈ (dfs flags cons (dfs_fuel flags) [f] seen []).1 := by
        induction hr with
        | refl => exact hfseen
        | tail _ hstep ih => exact hclosure _ ih _ hstep
      rw [h1] at hy1
      rcases List.mem_append.mp hy1 with h | h
      · rw [h2]; exact h
      · exfalso
        have hyf : Reach flags cons y f := reach_symmetric hr
        exact hfs (reach_stays hcl h hyf)
  refine ⟨hmem, ?_, hclosure, ?_⟩
  · rw [h1, h2]
  · intro y hy
    rw [h2] at hy
    exact h3 y hy

theorem scc_step_inv (flags : List String) (cons : List Constraint)
    (f : String) (hf : f ∈ flags)
    (acc : List String × List (List String)) (hinv : SccInv flags cons acc) :
    SccInv flags cons (scc_step flags cons acc f) ∧
    f ∈ (scc_step flags cons acc f).1 ∧
    acc.1 ⊆ (scc_step flags cons acc f).1 := by
  obtain ⟨hcl, hunion, hcomps, hcount⟩ := hinv
  unfold scc_step
  by_cases hfs : f ∈ acc.1
  · rw [if_pos hfs]
    exact ⟨⟨hcl, hunion, hcomps, hcount⟩, hfs, fun _ h => h⟩
  · rw [if_neg hfs]
    obtain ⟨hmem, hshape, hclosure, hnotseen⟩ :=
      dfs_component flags cons f acc.1 hf hfs hcl
    have hfin2 : f ∈ (dfs flags cons (dfs_fuel flags) [f] acc.1 []).2 :=
      (hmem f).mpr Relation.ReflTransGen.refl
    refine ⟨⟨hclosure, ?_, ?_, ?_⟩, ?_, ?_⟩
    · intro x
      rw [hshape]
      constructor
      · intro hx
        rcases List.mem_append.mp hx with h | h
        · exact ⟨_, List.mem_append_right _ (List.mem_singleton.mpr rfl), h⟩
        · obtain ⟨c, hc, hxc⟩ := (hunion x).mp h
          exact ⟨c, List.mem_append_left _ hc, hxc⟩
      · rintro ⟨c, hc, hxc⟩
        rcases List.mem_append.mp hc with h | h
        · exact List.mem_append_right _ ((hunion x).mpr ⟨c, h, hxc⟩)
        · rw [List.mem_singleton.mp h] at hxc
          exact List.mem_append_left _ hxc
    · intro c hc
      rcases List.mem_append.mp hc with h | h
      · exact hcomps c h
      · rw [List.mem_singleton.mp h]
        exact ⟨f, hf, hmem⟩
    · intro x
      rw [List.countP_append]
      by_cases hx : x ∈ (dfs flags cons (dfs_fuel flags) [f] acc.1 []).2
      · have hxs : x ∉ acc.1 := hnotseen x hx
        have hzero : acc.2.countP (fun c => x ∈ c) = 0 := by
          rw [List.countP_eq_zero]
          intro c hc
          simp only [decide_eq_true_eq]
          intro hxc
          exact hxs ((hunion x).mpr ⟨c, hc, hxc⟩)
        rw [hzero, List.countP_cons]
        simp only [List.countP_nil]
        split <;> omega
      · have hzero : List.countP (fun c => x ∈ c)
            [(dfs flags cons (dfs_fuel flags) [f] acc.1 []).2] = 0 := by
          rw [List.countP_eq_zero]
          intro c hc
          rw [List.mem_singleton.mp hc]
          simpa using hx
        rw [hzero]
        simpa using hcount x
    · rw [hshape]
      exact List.mem_append_left _ hfin2
    · rw [hshape]
      exact fun y hy => List.mem_append_right _ hy

theorem scc_fold_inv (flags : List String) (cons : List Constraint) :
    ∀ (fs : List String) (acc : List String × List (List String)),
      (∀ g ∈ fs, g ∈ flags) → SccInv flags cons acc →
      SccInv flags cons (fs.foldl (scc_step flags cons) acc) ∧
      (∀ g ∈ fs, g ∈ (fs.foldl (scc_step flags cons) acc).1) ∧
      acc.1 ⊆ (fs.foldl (scc_step flags cons) acc).1 := by
  intro fs
  induction fs with
  | nil =>
    intro acc _ hinv
    exact ⟨hinv, by simp, fun _ h => h⟩
  | cons g fs ih =>
    intro acc hmem hinv
    have hg : g ∈ flags := hmem g (List.mem_cons_self _ _)
    obtain ⟨hinv', hgin, hsub⟩ := scc_step_inv flags cons g hg acc hinv
    obtain ⟨hinv'', hall, hsub'⟩ :=
      ih (scc_step flags cons acc g) (fun x hx => hmem x (List.mem_cons_of_mem _ hx)) hinv'
    rw [List.foldl_cons]
    refine ⟨hinv'', ?_, fun y hy => hsub' (hsub hy)⟩
    intro x hx
    rcases List.mem_cons.mp hx with h | h
    · rw [h]; exact hsub' hgin
    · exact hall x h

/-- C4: `scc_equivalence` partitions the flags — every flag lies in exactly
one returned class, classes contain only flags — and two flags share a class
iff they are connected in the undirected graph with an edge per EQUIV(a,b)
and an edge per mutually-implying IMPLIES pair (so unconstrained flags form
singletons); `compute_B_eff` is the number of classes.  The concrete
cases of the spec: [a,b,c] with EQUIV(a,b) gives components {a,b},{c} and B_eff = 2, and
[a,b] with IMPLIES both ways gives one component and B_eff = 1. -/
theorem C4_scc_partition_and_components (flags : List String) (cons : List Constraint) :
    (∀ c ∈ scc_equivalence flags cons, ∀ x ∈ c, x ∈ flags) ∧
    (∀ f ∈ flags, (scc_equivalence flags cons).countP (fun c => f ∈ c) = 1) ∧
    (∀ x ∈ flags, ∀ y ∈ flags,
      ((∃ c ∈ scc_equivalence flags cons, x ∈ c ∧ y ∈ c) ↔ Reach flags cons x y)) ∧
    compute_B_eff flags cons = (scc_equivalence flags cons).length ∧
    (scc_equivalence ["a", "b", "c"] [Constraint.equivC "a" "b"]).map
        (fun c => c.toFinset) = [{"a", "b"}, {"c"}] ∧
    compute_B_eff ["a", "b", "c"] [Constraint.equivC "a" "b"] = 2 ∧
    (scc_equivalence ["a", "b"]
        [Constraint.impliesC "a" "b", Constraint.impliesC "b" "a"]).map
        (fun c => c.toFinset) = [{"a", "b"}] ∧
    compute_B_eff ["a", "b"] [Constraint.impliesC "a" "b", Constraint.impliesC "b" "a"] = 1 := by
  have hinv0 : SccInv flags cons ([], []) := by
    refine ⟨by simp, by simp, by simp, by simp⟩
  obtain ⟨⟨hcl, hunion, hcomps, hcount⟩, hall, -⟩ :=
    scc_fold_inv flags cons flags ([], []) (fun _ h => h) hinv0
  have hscc : scc_equivalence flags cons =
      (flags.foldl (scc_step flags cons) ([], [])).2 := rfl
  refine ⟨?_, ?_, ?_, rfl, by decide, by decide, by decide, by decide⟩
  · intro c hc x hx
    rw [hscc] at hc
    obtain ⟨r, hr, hiff⟩ := hcomps c hc
    exact reach_mem_flags hr ((hiff x).mp hx)
  · intro f hf
    rw [hscc]
    have hfin : f ∈ (flags.foldl (scc_step flags cons) ([], [])).1 := hall f hf
    obtain ⟨c, hc, hfc⟩ := (hunion f).mp hfin
    have hpos : 0 < (flags.foldl (scc_step flags cons) ([], [])).2.countP
        (fun c => f ∈ c) :=
      List.countP_pos_iff.mpr ⟨c, hc, by simpa using hfc⟩
    have hle := hcount f
    omega
  · intro x hx y hy
    rw [hscc]
    constructor
    · rintro ⟨c, hc, hxc, hyc⟩
      obtain ⟨r, hr, hiff⟩ := hcomps c hc
      exact Relation.ReflTransGen.trans
        (reach_symmetric ((hiff x).mp hxc)) ((hiff y).mp hyc)
    · intro hxy
      have hxin : x ∈ (flags.foldl (scc_step flags cons) ([], [])).1 := hall x hx
      obtain ⟨c, hc, hxc⟩ := (hunion x).mp hxin
      obtain ⟨r, hr, hiff⟩ := hcomps c hc
      have hry : Reach flags cons r y :=
        Relation.ReflTransGen.trans ((hiff x).mp hxc) hxy
      exact ⟨c, hc, hxc, (hiff y).mpr hry⟩

theorem C4_scc_partition_witness :
    ("c" ∈ ["a", "b", "c"]) ∧
    (scc_equivalence ["a", "b", "c"] [Constraint.equivC "a" "b"]).countP
      (fun c => "c" ∈ c) = 1 :=
  ⟨by decide,
    (C4_scc_partition_and_components ["a", "b", "c"] [Constraint.equivC "a" "b"]).2.1
      "c" (by decide)⟩

end ACBP
